import Mathlib

/-!
Verification of the segmented-download core of `src/get.py` (a resumable,
multi-connection HTTP downloader).  The Python source is shallowly embedded:

* the range planner is the while loop of `download_segmented` (lines 177-182);
* the resume-trust decision is the conditional of lines 185-190;
* `fetch_range` (lines 116-174) becomes a state machine driven by a script of
  server events (responses and timeouts); file writes are recorded as a log of
  `(offset, bytes)` blocks, one entry per `f.write` call;
* the engine's worker launch filter is the loop of lines 238-241, and the
  idealised happy-path run of the engine composes the fetcher over the plan;
* the per-completion metadata read-modify-write of `worker` (lines 222-233)
  runs atomically because it contains no `await` (asyncio is cooperative and
  single-threaded), so a concurrent execution is a sequence of whole blocks.
-/

/-! ### Range planner (download_segmented, lines 177-182)

`planLoop fuel pos size chunk` mirrors
`while pos < size: end = min(size-1, pos+chunk_size-1); append (pos,end); pos = end+1`.
The fuel argument only serves totality; `size` iterations always suffice when
`chunk > 0` because `pos` strictly increases. -/

def planLoop : Nat → Nat → Nat → Nat → List (Nat × Nat)
  | 0, _, _, _ => []
  | fuel + 1, pos, size, chunk =>
    if pos < size then
      (pos, min (size - 1) (pos + chunk - 1)) ::
        planLoop fuel (min (size - 1) (pos + chunk - 1) + 1) size chunk
    else []

def planRanges (size chunk : Nat) : List (Nat × Nat) :=
  planLoop size 0 size chunk

/-! ### Resume store (load_meta/save_meta and download_segmented lines 185-190) -/

structure Validators where
  etag : Option String
  last_modified : Option String
deriving DecidableEq, Repr

structure ResumeMeta where
  url : String
  size : Nat
  chunk_size : Nat
  etag : Option String
  last_modified : Option String
  done : List Nat
deriving DecidableEq, Repr

/-- The resume-trust decision of `download_segmented` lines 185-190:
`done_idx` is the stored `done` set iff stored size and url match and the
stored etag equals the probed etag OR the stored last-modified equals the
probed last-modified (Python's `==` on two `None`s is `True`, matched here by
equality of `Option String`). -/
def trustedDone (meta : Option ResumeMeta) (url : String) (size : Nat)
    (v : Validators) : Finset Nat :=
  match meta with
  | none => ∅
  | some m =>
    if m.size = size ∧ m.url = url then
      if m.etag = v.etag ∨ m.last_modified = v.last_modified then
        m.done.toFinset
      else ∅
    else ∅

/-- One segment-completion block of `worker` (lines 222-233):
load the stored done list, insert the finished index, store it back sorted
(`md["done"] = sorted(finished)`). -/
def completeSegment (done : List Nat) (i : Nat) : List Nat :=
  (insert i done.toFinset).sort (· ≤ ·)

/-- A serialized execution of completion blocks in some schedule order.
The block contains no `await` between `load_meta` and `save_meta`, so under
asyncio's single-threaded cooperative scheduling every admissible execution
is such a sequence of whole blocks. -/
def runCompletions (sched : List Nat) (done : List Nat) : List Nat :=
  sched.foldl completeSegment done

/-! ### Segment fetcher (fetch_range, lines 116-174)

The fetcher state carries the slice cursor `pos`, the retry counter and
backoff (seconds, always integral: 1,2,4,8,10), the log of file writes
(one `(offset, bytes)` block per `f.write(chunk[:want])`), the total progress
added, the log of backoff sleeps, and a ghost flag `jumped` recording whether
a Content-Range start ever moved the cursor forward (line 143). -/

structure FetchSt where
  pos : Nat
  attempt : Nat
  backoff : Nat
  writes : List (Nat × List Nat)
  prog : Nat
  sleeps : List Nat
  jumped : Bool
deriving DecidableEq, Repr

def initSt (start : Nat) : FetchSt :=
  { pos := start, attempt := 0, backoff := 1, writes := [], prog := 0,
    sleeps := [], jumped := false }

/-- One server event per loop iteration: either the request times out, or a
response arrives with a status, an optional parsed Content-Range start (the
regex of line 138), a list of body chunks, and a flag saying whether the
connection drops (timeout) after yielding all listed chunks rather than
ending cleanly. -/
inductive Event where
  | timeout
  | resp (status : Nat) (crStart : Option Nat) (chunks : List (List Nat))
      (midDrop : Bool)
deriving DecidableEq, Repr

/-- The Content-Range sanity check of lines 139-143: the cursor moves to the
server's declared start only when that start is ahead of the cursor. -/
def correctCursor (pos : Nat) (crStart : Option Nat) : Nat :=
  match crStart with
  | some srv => if srv > pos then srv else pos
  | none => pos

/-- The body loop of lines 146-156: for each chunk, stop if the cursor passed
the slice end, truncate to `want = min(len(chunk), end - pos + 1)`, stop if
nothing remains to write, else write `chunk[:want]` at `pos` and advance
cursor and progress.  The boolean result says whether every listed chunk was
consumed (only then can a mid-body drop fire, since a `break` stops pulling
from the generator). -/
def consumeChunks (endB : Nat) (s : FetchSt) :
    List (List Nat) → FetchSt × Bool
  | [] => (s, true)
  | c :: rest =>
    if s.pos > endB then (s, false)
    else if min c.length (endB - s.pos + 1) = 0 then (s, false)
    else
      consumeChunks endB
        { s with
          pos := s.pos + min c.length (endB - s.pos + 1)
          writes := s.writes ++ [(s.pos, c.take (min c.length (endB - s.pos + 1)))]
          prog := s.prog + min c.length (endB - s.pos + 1) } rest

inductive StepRes where
  | next (s : FetchSt)
  | brk (s : FetchSt)
  | fail (s : FetchSt) (msg : String)
deriving DecidableEq, Repr

/-- The except-branch of lines 162-168: increment the attempt counter, raise
when it exceeds `max_retries`, otherwise sleep `backoff` seconds and double
the backoff capped at 10. -/
def retryStep (maxRetries : Nat) (s : FetchSt) : StepRes :=
  if s.attempt + 1 > maxRetries then
    .fail { s with attempt := s.attempt + 1 } "retries exhausted"
  else
    .next { s with
      attempt := s.attempt + 1
      sleeps := s.sleeps ++ [s.backoff]
      backoff := min (s.backoff * 2) 10 }

/-- The Content-Range handling of lines 136-143 as a state update: only a 206
response is sanity-checked, and only a declared start ahead of the cursor
moves it (forward).  The ghost `jumped` flag records that such a forward move
happened. -/
def applyCr (status : Nat) (s : FetchSt) (crStart : Option Nat) : FetchSt :=
  if status = 206 then
    { s with
      pos := correctCursor s.pos crStart
      jumped := s.jumped || decide (s.pos < correctCursor s.pos crStart) }
  else s

/-- One iteration of the `while pos <= end` loop of `fetch_range`
(lines 121-168), given the server event for the issued request:
statuses outside {200, 206, 416} raise (`raise_for_status`, line 129) and the
exception is not caught by the timeout handler; 416 breaks out of the loop
(lines 131-133); a 206's Content-Range start is applied forward-only
(lines 136-143; a 200 skips the check); then the body is consumed; a drop
after consuming the body retries, a clean end resets attempt and backoff
(lines 159-160). -/
def step (endB maxRetries : Nat) (s : FetchSt) : Event → StepRes
  | .timeout => retryStep maxRetries s
  | .resp status crStart chunks midDrop =>
    if ¬(status = 200 ∨ status = 206 ∨ status = 416) then
      .fail s "http status error"
    else if status = 416 then .brk s
    else if midDrop && (consumeChunks endB (applyCr status s crStart) chunks).2 then
      retryStep maxRetries (consumeChunks endB (applyCr status s crStart) chunks).1
    else
      .next { (consumeChunks endB (applyCr status s crStart) chunks).1 with
        attempt := 0, backoff := 1 }

inductive FetchResult where
  | success (s : FetchSt)
  | rangeIncomplete (s : FetchSt) (got need : Nat)
  | error (s : FetchSt) (msg : String)
  | outOfEvents (s : FetchSt)
deriving DecidableEq, Repr

/-- The `while pos <= end` loop plus the final guard of lines 170-174: exiting
with `pos <= end` (only possible through the 416 `break`) raises the
"range incomplete - got N of M bytes" error, modelled by `rangeIncomplete`.
`outOfEvents` is a model artifact for scripts shorter than the run. -/
def fetchLoop (start endB maxRetries : Nat) :
    FetchSt → List Event → FetchResult
  | s, [] => if s.pos > endB then .success s else .outOfEvents s
  | s, ev :: rest =>
    if s.pos > endB then .success s
    else
      match step endB maxRetries s ev with
      | .next s' => fetchLoop start endB maxRetries s' rest
      | .brk s' => .rangeIncomplete s' (s'.pos - start) (endB - start + 1)
      | .fail s' msg => .error s' msg

def fetchRange (start endB maxRetries : Nat) (evs : List Event) : FetchResult :=
  fetchLoop start endB maxRetries (initSt start) evs

def finalSt : FetchResult → FetchSt
  | .success s => s
  | .rangeIncomplete s _ _ => s
  | .error s _ => s
  | .outOfEvents s => s

/-- `writtenAt ws j` holds when some write block covers absolute offset `j`. -/
def writtenAt (ws : List (Nat × List Nat)) (j : Nat) : Prop :=
  ∃ w ∈ ws, w.1 ≤ j ∧ j < w.1 + w.2.length

def blockSum (ws : List (Nat × List Nat)) : Nat :=
  (ws.map (fun w => w.2.length)).sum

/-! ### Idealised segmented engine (download_segmented, lines 176-252)

For the resume-idempotence claim the server is ideal: each ranged request for
`[s, e]` is answered by one 206 whose Content-Range starts at `s` and whose
single body chunk is exactly the resource bytes of `[s, e]`.  The output file
is a function `Nat → Nat` (preallocated by line 193-195); worker writes are
replayed onto it. -/

def resBytes (res : Nat → Nat) (s e : Nat) : List Nat :=
  (List.range (e - s + 1)).map (fun k => res (s + k))

def idealEvents (res : Nat → Nat) (s e : Nat) : List Event :=
  [.resp 206 (some s) [resBytes res s e] false]

def applyBlock (f : Nat → Nat) (w : Nat × List Nat) : Nat → Nat :=
  fun j => if w.1 ≤ j ∧ j < w.1 + w.2.length then w.2.getD (j - w.1) 0 else f j

def applyWrites (f : Nat → Nat) (ws : List (Nat × List Nat)) : Nat → Nat :=
  ws.foldl applyBlock f

/-- The write log a worker produces on segment `sg` against the ideal server. -/
def workerWrites (res : Nat → Nat) (mr : Nat) (sg : Nat × Nat) :
    List (Nat × List Nat) :=
  (finalSt (fetchRange sg.1 sg.2 mr (idealEvents res sg.1 sg.2))).writes

/-- The launch filter of lines 238-241: a worker is created for index `i`
exactly when `i` is not in the trusted done set. -/
def launchedIndices (ranges : List (Nat × Nat)) (doneIdx : Finset Nat) :
    List Nat :=
  (List.range ranges.length).filter (fun i => decide (i ∉ doneIdx))

def runWorkers (res : Nat → Nat) (mr : Nat) (ranges : List (Nat × Nat))
    (idxs : List Nat) (file : Nat → Nat) : Nat → Nat :=
  idxs.foldl (fun f i => applyWrites f (workerWrites res mr (ranges.getD i (0, 0)))) file

/-- One idealised run of `download_segmented`: plan the ranges, launch a
worker for every index outside the trusted done set, replay their writes onto
the current file contents.  Write order is immaterial because the idealised
blocks all write the resource byte at its own offset. -/
def runSegmented (res : Nat → Nat) (mr size chunk : Nat) (doneIdx : Finset Nat)
    (file : Nat → Nat) : Nat → Nat :=
  runWorkers res mr (planRanges size chunk)
    (launchedIndices (planRanges size chunk) doneIdx) file

/-! ### Range planner lemmas -/

theorem planLoop_stop (fuel pos size chunk : Nat) (h : ¬ pos < size) :
    planLoop fuel pos size chunk = [] := by
  cases fuel <;> simp [planLoop, h]

theorem planLoop_mem (fuel : Nat) : ∀ (pos : Nat) {size chunk : Nat}, 0 < chunk →
    ∀ p ∈ planLoop fuel pos size chunk,
      pos ≤ p.1 ∧ p.1 ≤ p.2 ∧ p.2 < size ∧ p.2 + 1 - p.1 ≤ chunk := by
  induction fuel with
  | zero => intro pos size chunk _ p hp; simp [planLoop] at hp
  | succ n ih =>
    intro pos size chunk hc p hp
    rw [planLoop] at hp
    by_cases h : pos < size
    · rw [if_pos h] at hp
      rcases List.mem_cons.mp hp with rfl | hp
    
      · refine ⟨le_refl _, ?_, ?_, ?_⟩ <;> simp only [] <;> omega
      · have h2 := ih _ hc p hp
        omega
    · rw [if_neg h] at hp
      simp at hp

theorem planLoop_head1 (fuel pos size chunk : Nat) (x : Nat × Nat)
    (t : List (Nat × Nat)) (h : planLoop fuel pos size chunk = x :: t) :
    x.1 = pos := by
  cases fuel with
  | zero => simp [planLoop] at h
  | succ n =>
    rw [planLoop] at h
    split at h
    · injection h with h1 _
      rw [← h1]
    · simp at h

theorem planLoop_head (fuel pos size chunk : Nat) (hf : 0 < fuel)
    (hp : pos < size) :
    ∃ t, planLoop fuel pos size chunk
        = (pos, min (size - 1) (pos + chunk - 1)) :: t := by
  cases fuel with
  | zero => omega
  | succ n => exact ⟨_, by rw [planLoop, if_pos hp]⟩

theorem planLoop_chain (fuel : Nat) : ∀ (pos : Nat) {size chunk : Nat},
    List.Chain' (fun a b => a.2 + 1 = b.1) (planLoop fuel pos size chunk) := by
  induction fuel with
  | zero => intro pos size chunk; simp [planLoop]
  | succ n ih =>
    intro pos size chunk
    rw [planLoop]
    split
    · rw [List.chain'_cons']
      refine ⟨?_, ih _⟩
      intro y hy
      cases hn : planLoop n (min (size - 1) (pos + chunk - 1) + 1) size chunk with
      | nil => rw [hn] at hy; simp at hy
      | cons x t =>
        rw [hn] at hy
        simp only [List.head?_cons, Option.mem_def, Option.some.injEq] at hy
        have hx := planLoop_head1 n _ size chunk x t hn
        rw [← hy]
        simp only []
        omega
    · exact List.chain'_nil

theorem planLoop_pairwise (fuel : Nat) : ∀ (pos : Nat) {size chunk : Nat},
    0 < chunk →
    List.Pairwise (fun a b : Nat × Nat => a.2 < b.1)
      (planLoop fuel pos size chunk) := by
  induction fuel with
  | zero => intro pos size chunk _; simp [planLoop]
  | succ n ih =>
    intro pos size chunk hc
    rw [planLoop]
    split
    · refine List.Pairwise.cons ?_ (ih _ hc)
      intro b hb
      have h2 := planLoop_mem n _ hc b hb
      simp only []
      omega
    · exact List.Pairwise.nil

theorem planLoop_cover (fuel : Nat) : ∀ (pos : Nat) {size chunk : Nat},
    0 < chunk → ∀ j, pos ≤ j → j < size → size ≤ pos + fuel →
      ∃ p ∈ planLoop fuel pos size chunk, p.1 ≤ j ∧ j ≤ p.2 := by
  induction fuel with
  | zero => intro pos size chunk _ j h1 h2 h3; omega
  | succ n ih =>
    intro pos size chunk hc j h1 h2 h3
    have hp : pos < size := by omega
    rw [planLoop, if_pos hp]
    by_cases hj : j ≤ min (size - 1) (pos + chunk - 1)
    · exact ⟨(pos, min (size - 1) (pos + chunk - 1)),
        List.mem_cons_self _ _, h1, hj⟩
    · obtain ⟨p, hp1, hp2, hp3⟩ :=
        ih (min (size - 1) (pos + chunk - 1) + 1) hc j (by omega) h2 (by omega)
      exact ⟨p, List.mem_cons_of_mem _ hp1, hp2, hp3⟩

theorem planLoop_last (fuel : Nat) : ∀ (pos : Nat) {size chunk : Nat},
    0 < chunk → pos < size → size ≤ pos + fuel →
    ∃ p, (planLoop fuel pos size chunk).getLast? = some p ∧ p.2 = size - 1 := by
  induction fuel with
  | zero => intro pos size chunk _ hp hf; omega
  | succ n ih =>
    intro pos size chunk hc hp hf
    rw [planLoop, if_pos hp]
    by_cases hend : min (size - 1) (pos + chunk - 1) + 1 < size
    · obtain ⟨p, hp1, hp2⟩ := ih (min (size - 1) (pos + chunk - 1) + 1) hc hend (by omega)
      refine ⟨p, ?_, hp2⟩
      obtain ⟨t, ht⟩ := planLoop_head n (min (size - 1) (pos + chunk - 1) + 1)
        size chunk (by omega) hend
      rw [ht]
      rw [ht] at hp1
      rw [List.getLast?_cons_cons]
      exact hp1
    · rw [planLoop_stop n _ size chunk (by omega)]
      exact ⟨(pos, min (size - 1) (pos + chunk - 1)), rfl, by omega⟩

theorem planRanges_ne_nil {size chunk : Nat} (hs : 0 < size) :
    planRanges size chunk ≠ [] := by
  obtain ⟨t, ht⟩ := planLoop_head size 0 size chunk hs hs
  rw [planRanges, ht]
  simp

theorem planRanges_mem {size chunk : Nat} (hc : 0 < chunk) :
    ∀ p ∈ planRanges size chunk, p.1 ≤ p.2 ∧ p.2 < size ∧ p.2 + 1 - p.1 ≤ chunk := by
  intro p hp
  have := planLoop_mem size 0 hc p hp
  omega

theorem planRanges_cover {size chunk : Nat} (hc : 0 < chunk) :
    ∀ j < size, ∃ p ∈ planRanges size chunk, p.1 ≤ j ∧ j ≤ p.2 := by
  intro j hj
  exact planLoop_cover size 0 hc j (Nat.zero_le _) hj (by omega)

theorem planRanges_chain (size chunk : Nat) :
    List.Chain' (fun a b : Nat × Nat => a.2 + 1 = b.1) (planRanges size chunk) :=
  planLoop_chain size 0

/-- C2: for every size > 0 and chunk_size > 0, the range plan built by
`download_segmented` (lines 177-182) is a nonempty ordered sequence that
exactly partitions [0, size): the first segment starts at 0, the last segment
ends at size - 1, each consecutive pair satisfies seg[i].end + 1 =
seg[i+1].start (no gaps, no overlaps), every segment length is at most
chunk_size, and replanning with identical inputs yields identical boundaries
(the plan is a pure function of its inputs). -/
theorem C2_range_plan_partition (size chunk : Nat) (hs : 0 < size)
    (hc : 0 < chunk) :
    planRanges size chunk ≠ [] ∧
    (planRanges size chunk).head?.map Prod.fst = some 0 ∧
    (planRanges size chunk).getLast?.map Prod.snd = some (size - 1) ∧
    (∀ i (h : i + 1 < (planRanges size chunk).length),
      ((planRanges size chunk).get ⟨i, by omega⟩).2 + 1
        = ((planRanges size chunk).get ⟨i + 1, h⟩).1) ∧
    (∀ p ∈ planRanges size chunk,
      p.1 ≤ p.2 ∧ p.2 < size ∧ p.2 + 1 - p.1 ≤ chunk) ∧
    planRanges size chunk = planRanges size chunk := by
  obtain ⟨t, ht⟩ := planLoop_head size 0 size chunk hs hs
  refine ⟨planRanges_ne_nil hs, ?_, ?_, ?_, planRanges_mem hc, rfl⟩
  · rw [planRanges, ht]
    rfl
  · obtain ⟨p, hp1, hp2⟩ := planLoop_last size 0 hc hs (by omega)
    rw [planRanges, hp1]
    simp [hp2]
  · intro i h
    exact List.chain'_iff_get.mp (planRanges_chain size chunk) i (by omega)

theorem C2_witness :
    (0 : Nat) < 5 ∧ (0 : Nat) < 2 ∧
    (planRanges 5 2 ≠ [] ∧
     (planRanges 5 2).head?.map Prod.fst = some 0 ∧
     (planRanges 5 2).getLast?.map Prod.snd = some (5 - 1) ∧
     (∀ i (h : i + 1 < (planRanges 5 2).length),
       ((planRanges 5 2).get ⟨i, by omega⟩).2 + 1
         = ((planRanges 5 2).get ⟨i + 1, h⟩).1) ∧
     (∀ p ∈ planRanges 5 2, p.1 ≤ p.2 ∧ p.2 < 5 ∧ p.2 + 1 - p.1 ≤ 2) ∧
     planRanges 5 2 = planRanges 5 2) :=
  ⟨by decide, by decide, C2_range_plan_partition 5 2 (by decide) (by decide)⟩

/-! ### Resume-trust claims -/

/-- C3 counterexample: with matching URL and size, a stored entity tag that
differs from the probed one, but a matching Last-Modified, the code of
lines 185-190 still trusts the entire stored done set, because line 189
accepts when EITHER validator matches.  The claim that an entity-tag mismatch
alone yields the empty trusted set is therefore false on the code. -/
theorem C3_counterexample :
    trustedDone (some ⟨"u", 100, 10, some "A", some "T", [0, 1, 2]⟩)
      "u" 100 ⟨some "B", some "T"⟩ ≠ (∅ : Finset Nat) := by
  decide

/-- C3 amended: with matching URL and size, zero previously completed segment
indices are trusted when BOTH the stored entity tag differs from the probed
entity tag AND the stored last-modified differs from the probed
last-modified; a mismatch of the entity tag alone does not force a restart
when the last-modified values agree. -/
theorem C3_both_validators_mismatch (m : ResumeMeta) (url : String)
    (size : Nat) (v : Validators) (hsz : m.size = size) (hurl : m.url = url)
    (he : m.etag ≠ v.etag) (hl : m.last_modified ≠ v.last_modified) :
    trustedDone (some m) url size v = ∅ := by
  simp [trustedDone, hsz, hurl, he, hl]

theorem C3_witness :
    (ResumeMeta.mk "u" 9 2 (some "A") (some "S") [0]).size = 9 ∧
    (ResumeMeta.mk "u" 9 2 (some "A") (some "S") [0]).url = "u" ∧
    (ResumeMeta.mk "u" 9 2 (some "A") (some "S") [0]).etag
      ≠ (Validators.mk (some "B") (some "T")).etag ∧
    (ResumeMeta.mk "u" 9 2 (some "A") (some "S") [0]).last_modified
      ≠ (Validators.mk (some "B") (some "T")).last_modified ∧
    trustedDone (some (ResumeMeta.mk "u" 9 2 (some "A") (some "S") [0]))
      "u" 9 (Validators.mk (some "B") (some "T")) = ∅ :=
  ⟨rfl, rfl, by decide, by decide,
    C3_both_validators_mismatch _ _ _ _ rfl rfl (by decide) (by decide)⟩

theorem mem_completeSegment (done : List Nat) (i k : Nat) :
    k ∈ completeSegment done i ↔ k = i ∨ k ∈ done := by
  simp [completeSegment, Finset.mem_sort, Finset.mem_insert, List.mem_toFinset]

theorem mem_runCompletions (sched : List Nat) :
    ∀ (done : List Nat) (k : Nat),
      k ∈ runCompletions sched done ↔ k ∈ sched ∨ k ∈ done := by
  induction sched with
  | nil => intro done k; simp [runCompletions]
  | cons a t ih =>
    intro done k
    show k ∈ runCompletions t (completeSegment done a) ↔ _
    rw [ih, mem_completeSegment]
    simp only [List.mem_cons]
    tauto

/-- C9: resume-metadata updates on segment completion are serialized.  The
load-modify-save block of `worker` (lines 222-233) contains no await between
`load_meta` and `save_meta`, so under asyncio's cooperative single-threaded
scheduling it runs as one atomic block; every admissible execution is a
sequence `sched` of whole completion blocks.  For any such order, both
completed indices i and j are present in the final persisted done list, and
no previously persisted entry is lost. -/
theorem C9_no_lost_completion (sched done : List Nat) (i j : Nat)
    (hi : i ∈ sched) (hj : j ∈ sched) :
    i ∈ runCompletions sched done ∧ j ∈ runCompletions sched done ∧
    ∀ k ∈ done, k ∈ runCompletions sched done := by
  refine ⟨?_, ?_, ?_⟩
  · exact (mem_runCompletions sched done i).mpr (Or.inl hi)
  · exact (mem_runCompletions sched done j).mpr (Or.inl hj)
  · intro k hk
    exact (mem_runCompletions sched done k).mpr (Or.inr hk)

theorem C9_witness :
    (0 : Nat) ∈ [0, 1] ∧ (1 : Nat) ∈ [0, 1] ∧
    (0 ∈ runCompletions [0, 1] [7] ∧ 1 ∈ runCompletions [0, 1] [7] ∧
     ∀ k ∈ [7], k ∈ runCompletions [0, 1] [7]) :=
  ⟨by decide, by decide, C9_no_lost_completion [0, 1] [7] 0 1 (by decide) (by decide)⟩

/-! ### Fetch-loop invariants -/

theorem blockSum_append (ws : List (Nat × List Nat)) (w : Nat × List Nat) :
    blockSum (ws ++ [w]) = blockSum ws + w.2.length := by
  simp [blockSum]

/-- Write-log invariant of a fetcher state relative to the slice
`[start, endB]`: the cursor never precedes `start`; every recorded write
block is nonempty, begins at or after `start`, ends inside the slice, and
ends at or before the cursor; blocks are in strictly increasing disjoint
order; the progress counter equals the total bytes written; every recorded
backoff sleep is of the shape `min (2^k) 10`; and while no Content-Range
forward jump happened, the written offsets are exactly `[start, pos)` and the
cursor stays at most one past the slice end. -/
def WInv (start endB : Nat) (s : FetchSt) : Prop :=
  start ≤ s.pos ∧
  (∀ w ∈ s.writes, start ≤ w.1 ∧ 0 < w.2.length ∧
      w.1 + w.2.length ≤ endB + 1 ∧ w.1 + w.2.length ≤ s.pos) ∧
  List.Pairwise (fun a b : Nat × List Nat => a.1 + a.2.length ≤ b.1) s.writes ∧
  s.prog = blockSum s.writes ∧
  (∀ x ∈ s.sleeps, ∃ k, x = min (2 ^ k) 10) ∧
  (s.jumped = false →
    s.pos = start + blockSum s.writes ∧
    (∀ j, start ≤ j → j < s.pos → writtenAt s.writes j) ∧
    (s.pos = start ∨ s.pos ≤ endB + 1))

/-- Full loop invariant: the write-log invariant plus the exact backoff value
and the attempt bound, which hold at every state the while loop re-enters. -/
def FInv (start endB mr : Nat) (s : FetchSt) : Prop :=
  WInv start endB s ∧ s.backoff = min (2 ^ s.attempt) 10 ∧ s.attempt ≤ mr

theorem WInv_init (start endB : Nat) : WInv start endB (initSt start) := by
  refine ⟨le_refl _, by simp [initSt], by simp [initSt], rfl, by simp [initSt], ?_⟩
  intro _
  refine ⟨by simp [initSt, blockSum], ?_, Or.inl rfl⟩
  intro j h1 h2
  simp only [initSt] at h2
  omega

theorem FInv_init (start endB mr : Nat) : FInv start endB mr (initSt start) :=
  ⟨WInv_init start endB, by simp [initSt], by simp [initSt]⟩

theorem WInv_write (start endB : Nat) (s : FetchSt) (c : List Nat)
    (h : WInv start endB s) (hpos : ¬ s.pos > endB)
    (hw : ¬ min c.length (endB - s.pos + 1) = 0) :
    WInv start endB
      { s with
        pos := s.pos + min c.length (endB - s.pos + 1)
        writes := s.writes ++ [(s.pos, c.take (min c.length (endB - s.pos + 1)))]
        prog := s.prog + min c.length (endB - s.pos + 1) } := by
  obtain ⟨h1, h2, h3, h4, h5, h6⟩ := h
  have hwle : min c.length (endB - s.pos + 1) ≤ endB - s.pos + 1 :=
    min_le_right _ _
  have hwc : min c.length (endB - s.pos + 1) ≤ c.length := min_le_left _ _
  have hlen : (c.take (min c.length (endB - s.pos + 1))).length
      = min c.length (endB - s.pos + 1) := by
    rw [List.length_take]
    omega
  refine ⟨by dsimp only; omega, ?_, ?_, ?_, by simpa using h5, ?_⟩
  · intro w hw'
    dsimp only at hw' ⊢
    rcases List.mem_append.mp hw' with hw' | hw'
    · have := h2 w hw'
      omega
    · rw [List.mem_singleton] at hw'
      subst hw'
      dsimp only
      rw [hlen]
      omega
  · dsimp only
    rw [List.pairwise_append]
    refine ⟨h3, List.pairwise_singleton _ _, ?_⟩
    intro a ha b hb
    rw [List.mem_singleton] at hb
    subst hb
    have := h2 a ha
    dsimp only
    omega
  · dsimp only
    rw [blockSum_append]
    dsimp only
    rw [hlen]
    omega
  · intro hj
    dsimp only at hj
    obtain ⟨hnj1, hnj2, hnj3⟩ := h6 hj
    dsimp only
    refine ⟨?_, ?_, Or.inr (by omega)⟩
    · rw [blockSum_append]
      dsimp only
      rw [hlen]
      omega
    · intro j hj1 hj2
      by_cases hjp : j < s.pos
      · obtain ⟨w, hw1, hw2⟩ := hnj2 j hj1 hjp
        exact ⟨w, List.mem_append_left _ hw1, hw2⟩
      · refine ⟨(s.pos, c.take (min c.length (endB - s.pos + 1))),
          List.mem_append_right _ (List.mem_singleton_self _), by omega, ?_⟩
        dsimp only
        rw [hlen]
        omega

theorem consumeChunks_winv (start endB : Nat) :
    ∀ (chunks : List (List Nat)) (s : FetchSt), WInv start endB s →
      WInv start endB (consumeChunks endB s chunks).1 ∧
      s.pos ≤ (consumeChunks endB s chunks).1.pos ∧
      (consumeChunks endB s chunks).1.attempt = s.attempt ∧
      (consumeChunks endB s chunks).1.backoff = s.backoff ∧
      (consumeChunks endB s chunks).1.sleeps = s.sleeps ∧
      (consumeChunks endB s chunks).1.jumped = s.jumped := by
  intro chunks
  induction chunks with
  | nil =>
    intro s h
    exact ⟨h, le_refl _, rfl, rfl, rfl, rfl⟩
  | cons c rest ih =>
    intro s h
    rw [consumeChunks]
    by_cases h1 : s.pos > endB
    · rw [if_pos h1]
      exact ⟨h, le_refl _, rfl, rfl, rfl, rfl⟩
    · rw [if_neg h1]
      by_cases h2 : min c.length (endB - s.pos + 1) = 0
      · rw [if_pos h2]
        exact ⟨h, le_refl _, rfl, rfl, rfl, rfl⟩
      · rw [if_neg h2]
        have hw := WInv_write start endB s c h h1 h2
        have hr := ih _ hw
        refine ⟨hr.1, ?_, hr.2.2⟩
        have := hr.2.1
        dsimp only at this
        omega

theorem backoff_double (a : Nat) :
    min (min (2 ^ a) 10 * 2) 10 = min (2 ^ (a + 1)) 10 := by
  rcases le_or_lt (2 ^ a) 10 with h | h
  · rw [min_eq_left h, pow_succ]
  · have h2 : (10 : Nat) ≤ 2 ^ (a + 1) := by
      have := Nat.pow_le_pow_right (show 1 ≤ 2 by omega) (Nat.le_succ a)
      omega
    omega

theorem retryStep_next (start endB mr : Nat) (s s' : FetchSt)
    (h : FInv start endB mr s) (hs : retryStep mr s = .next s') :
    FInv start endB mr s' := by
  obtain ⟨⟨h1, h2, h3, h4, h5, h6⟩, hb, ha⟩ := h
  rw [retryStep] at hs
  split at hs
  · exact absurd hs (by simp)
  · next hcond =>
    injection hs with hs
    subst hs
    refine ⟨⟨h1, h2, h3, h4, ?_, h6⟩, ?_, by dsimp only; omega⟩
    · intro x hx
      dsimp only at hx
      rcases List.mem_append.mp hx with hx | hx
      · exact h5 x hx
      · rw [List.mem_singleton] at hx
        subst hx
        exact ⟨s.attempt, hb⟩
    · dsimp only
      rw [hb, backoff_double]

theorem retryStep_fail (start endB mr : Nat) (s s' : FetchSt) (msg : String)
    (h : FInv start endB mr s) (hs : retryStep mr s = .fail s' msg) :
    WInv start endB s' ∧ s'.attempt = mr + 1 ∧ msg = "retries exhausted" := by
  obtain ⟨⟨h1, h2, h3, h4, h5, h6⟩, hb, ha⟩ := h
  rw [retryStep] at hs
  split at hs
  · next hcond =>
    injection hs with hs1 hs2
    subst hs1
    subst hs2
    exact ⟨⟨h1, h2, h3, h4, h5, h6⟩, by dsimp only; omega, rfl⟩
  · exact absurd hs (by simp)

theorem retryStep_ne_brk (mr : Nat) (s s' : FetchSt) :
    retryStep mr s ≠ .brk s' := by
  rw [retryStep]
  split <;> simp

theorem applyCr_winv (start endB : Nat) (status : Nat) (s : FetchSt)
    (cr : Option Nat) (h : WInv start endB s) :
    WInv start endB (applyCr status s cr) ∧
    s.pos ≤ (applyCr status s cr).pos ∧
    (applyCr status s cr).attempt = s.attempt ∧
    (applyCr status s cr).backoff = s.backoff ∧
    (applyCr status s cr).sleeps = s.sleeps := by
  rw [applyCr]
  split
  · obtain ⟨h1, h2, h3, h4, h5, h6⟩ := h
    have hcc : s.pos ≤ correctCursor s.pos cr := by
      rw [correctCursor.eq_def]
      cases cr with
      | none => exact le_refl _
      | some v => dsimp only; split <;> omega
    refine ⟨⟨by dsimp only; omega, ?_, h3, h4, h5, ?_⟩,
      by dsimp only; omega, rfl, rfl, rfl⟩
    · intro w hw
      have := h2 w hw
      dsimp only
      omega
    · intro hj
      dsimp only at hj
      rw [Bool.or_eq_false_iff] at hj
      obtain ⟨hj1, hj2⟩ := hj
      have hnlt : ¬ (s.pos < correctCursor s.pos cr) := by
        simpa using hj2
      have hcp : correctCursor s.pos cr = s.pos := by omega
      obtain ⟨a, b, c⟩ := h6 hj1
      dsimp only
      rw [hcp]
      exact ⟨a, b, c⟩
  · exact ⟨h, le_refl _, rfl, rfl, rfl⟩

theorem step_next_inv (start endB mr : Nat) (s s' : FetchSt) (ev : Event)
    (h : FInv start endB mr s) (hs : step endB mr s ev = .next s') :
    FInv start endB mr s' := by
  cases ev with
  | timeout => exact retryStep_next start endB mr s s' h hs
  | resp status cr chunks midDrop =>
    rw [step] at hs
    split at hs
    · exact absurd hs (by simp)
    · split at hs
      · exact absurd hs (by simp)
      · split at hs
        · have hac := applyCr_winv start endB status s cr h.1
          have hcc := consumeChunks_winv start endB chunks _ hac.1
          refine retryStep_next start endB mr _ s' ⟨hcc.1, ?_, ?_⟩ hs
          · rw [hcc.2.2.2.1, hac.2.2.2.1, hcc.2.2.1, hac.2.2.1]
            exact h.2.1
          · rw [hcc.2.2.1, hac.2.2.1]
            exact h.2.2
        · injection hs with hs
          subst hs
          have hac := applyCr_winv start endB status s cr h.1
          have hcc := consumeChunks_winv start endB chunks _ hac.1
          obtain ⟨h1, h2, h3, h4, h5, h6⟩ := hcc.1
          refine ⟨⟨h1, h2, h3, h4, h5, h6⟩, by dsimp only; norm_num,
            by dsimp only; omega⟩

theorem step_brk_eq (endB mr : Nat) (s s' : FetchSt) (ev : Event)
    (hs : step endB mr s ev = .brk s') : s' = s := by
  cases ev with
  | timeout => exact absurd hs (retryStep_ne_brk mr s s')
  | resp status cr chunks midDrop =>
    rw [step] at hs
    split at hs
    · exact absurd hs (by simp)
    · split at hs
      · injection hs with hs
        exact hs.symm
      · split at hs
        · exact absurd hs (retryStep_ne_brk mr _ s')
        · exact absurd hs (by simp)

theorem step_fail_inv (start endB mr : Nat) (s s' : FetchSt) (ev : Event)
    (msg : String) (h : FInv start endB mr s)
    (hs : step endB mr s ev = .fail s' msg) :
    WInv start endB s' ∧ (msg = "retries exhausted" → s'.attempt = mr + 1) := by
  cases ev with
  | timeout =>
    obtain ⟨hw, ha, hm⟩ := retryStep_fail start endB mr s s' msg h hs
    exact ⟨hw, fun _ => ha⟩
  | resp status cr chunks midDrop =>
    rw [step] at hs
    split at hs
    · injection hs with hs1 hs2
      subst hs1
      refine ⟨h.1, ?_⟩
      intro hmsg
      rw [← hs2] at hmsg
      exact absurd hmsg (by decide)
    · split at hs
      · exact absurd hs (by simp)
      · split at hs
        · have hac := applyCr_winv start endB status s cr h.1
          have hcc := consumeChunks_winv start endB chunks _ hac.1
          have hfi : FInv start endB mr
              (consumeChunks endB (applyCr status s cr) chunks).1 := by
            refine ⟨hcc.1, ?_, ?_⟩
            · rw [hcc.2.2.2.1, hac.2.2.2.1, hcc.2.2.1, hac.2.2.1]
              exact h.2.1
            · rw [hcc.2.2.1, hac.2.2.1]
              exact h.2.2
          obtain ⟨hw, ha, hm⟩ := retryStep_fail start endB mr _ s' msg hfi hs
          exact ⟨hw, fun _ => ha⟩
        · exact absurd hs (by simp)

theorem fetchLoop_inv (start endB mr : Nat) :
    ∀ (evs : List Event) (s : FetchSt), FInv start endB mr s →
      WInv start endB (finalSt (fetchLoop start endB mr s evs)) ∧
      (∀ s', fetchLoop start endB mr s evs = .success s' →
        FInv start endB mr s' ∧ endB < s'.pos) ∧
      (∀ s', fetchLoop start endB mr s evs = .error s' "retries exhausted" →
        s'.attempt = mr + 1) := by
  intro evs
  induction evs with
  | nil =>
    intro s h
    rw [fetchLoop]
    split
    · next hp =>
      refine ⟨h.1, ?_, ?_⟩
      · intro s' hs'
        cases hs'
        exact ⟨h, hp⟩
      · intro s' hs'
        cases hs'
    · next hp =>
      refine ⟨h.1, ?_, ?_⟩ <;> intro s' hs' <;> cases hs'
  | cons ev rest ih =>
    intro s h
    rw [fetchLoop]
    split
    · next hp =>
      refine ⟨h.1, ?_, ?_⟩
      · intro s' hs'
        cases hs'
        exact ⟨h, hp⟩
      · intro s' hs'
        cases hs'
    · next hp =>
      cases hstep : step endB mr s ev with
      | next s2 =>
        exact ih s2 (step_next_inv start endB mr s s2 ev h hstep)
      | brk s2 =>
        have hse := step_brk_eq endB mr s s2 ev hstep
        subst hse
        refine ⟨h.1, ?_, ?_⟩ <;> intro s' hs' <;> cases hs'
      | fail s2 msg =>
        obtain ⟨hw, hm⟩ := step_fail_inv start endB mr s s2 ev msg h hstep
        refine ⟨hw, ?_, ?_⟩
        · intro s' hs'
          cases hs'
        · intro s' hs'
          cases hs'
          exact hm rfl

theorem fetchRange_winv (start endB mr : Nat) (evs : List Event) :
    WInv start endB (finalSt (fetchRange start endB mr evs)) :=
  (fetchLoop_inv start endB mr evs _ (FInv_init start endB mr)).1

theorem consumeChunks_single (endB : Nat) (s : FetchSt) (c : List Nat)
    (hpos : ¬ s.pos > endB) (hw : ¬ min c.length (endB - s.pos + 1) = 0) :
    consumeChunks endB s [c] =
      ({ s with
          pos := s.pos + min c.length (endB - s.pos + 1)
          writes := s.writes ++ [(s.pos, c.take (min c.length (endB - s.pos + 1)))]
          prog := s.prog + min c.length (endB - s.pos + 1) }, true) := by
  rw [consumeChunks, if_neg hpos, if_neg hw, consumeChunks]

theorem fetchLoop_done (start endB mr : Nat) (s : FetchSt) (evs : List Event)
    (h : endB < s.pos) : fetchLoop start endB mr s evs = .success s := by
  cases evs <;> rw [fetchLoop] <;> rw [if_pos h]

theorem getD_take_of_lt (l : List Nat) (n k : Nat) (h : k < n) :
    (l.take n).getD k 0 = l.getD k 0 := by
  rw [List.getD_eq_getElem?_getD, List.getD_eq_getElem?_getD, List.getElem?_take,
    if_pos h]

/-- C4: for every segment `[start, endB]` and every script of server events,
the fetcher never writes a byte outside the segment: the cursor starts at
`start` and never moves below it, every recorded write block is nonempty,
begins at or after `start` and ends at or before `endB`, writes occur at
strictly increasing disjoint offsets (the cursor only moves forward), and the
truncation `want = min(len(chunk), end - pos + 1)` is the write rule itself
(definition `consumeChunks`). -/
theorem C4_writes_within_segment (start endB mr : Nat) (evs : List Event) :
    start ≤ (finalSt (fetchRange start endB mr evs)).pos ∧
    (∀ w ∈ (finalSt (fetchRange start endB mr evs)).writes,
      start ≤ w.1 ∧ 0 < w.2.length ∧ w.1 + w.2.length ≤ endB + 1) ∧
    List.Pairwise (fun a b : Nat × List Nat => a.1 + a.2.length ≤ b.1)
      (finalSt (fetchRange start endB mr evs)).writes := by
  obtain ⟨h1, h2, h3, h4, h5, h6⟩ := fetchRange_winv start endB mr evs
  exact ⟨h1, fun w hw => ⟨(h2 w hw).1, (h2 w hw).2.1, (h2 w hw).2.2.1⟩, h3⟩

theorem C4_witness :
    (0 : Nat) ≤ (0, [1, 2, 3, 4]).1 ∧ 0 < (0, ([1, 2, 3, 4] : List Nat)).2.length ∧
    (0, ([1, 2, 3, 4] : List Nat)).1 + (0, ([1, 2, 3, 4] : List Nat)).2.length ≤ 3 + 1 :=
  (C4_writes_within_segment 0 3 0 [Event.resp 200 none [[1, 2, 3, 4]] false]).2.1
    (0, [1, 2, 3, 4]) (by decide)

/-- C5: the claim (and the comment on line 132, "treat as done") says a 416
response short-circuits the fetch as success.  The code instead only breaks
out of the while loop, after which the final guard of lines 170-174 sees
`pos <= end` and raises "range N incomplete": on segment [0, 9] a first
response of 416 produces the incomplete-range error with 0 of 10 bytes, not
a success.  The code contradicts its own comment; the claim matches the
stated intent, the code does not. -/
theorem C5_status416_raises_incomplete :
    fetchRange 0 9 5 [Event.resp 416 none [] false]
      = FetchResult.rangeIncomplete (initSt 0) 0 10 := by
  rfl

/-- C6 counterexample: on segment [5, 9] a 206 response declares
Content-Range start 2 (earlier than the requested cursor 5).  The claim says
the cursor is corrected to the declared start (2) before writing; the code
(lines 141-143) only corrects forward, so the body is written at offset 5,
not at the declared start. -/
theorem C6_counterexample :
    (finalSt (fetchRange 5 9 3
        [Event.resp 206 (some 2) [[10, 20, 30, 40, 50]] false])).writes
      = [(5, [10, 20, 30, 40, 50])] ∧ (5 : Nat) ≠ 2 := by
  exact ⟨by rfl, by omega⟩

/-- C6 amended: for a 206 response with declared Content-Range start `v`, the
cursor is corrected forward only: writing begins at `max v pos` — at `v` when
the server starts ahead of the request, at the unchanged cursor `pos` when
the server starts at or before it — and the written block is truncated at
the segment end. -/
theorem C6_forward_only_correction (endB mr : Nat) (s : FetchSt) (v : Nat)
    (c : List Nat) (hc : c ≠ []) (hv : max v s.pos ≤ endB) :
    step endB mr s (Event.resp 206 (some v) [c] false) =
      StepRes.next
        { s with
          pos := max v s.pos + min c.length (endB - max v s.pos + 1)
          attempt := 0
          backoff := 1
          writes := s.writes ++
            [(max v s.pos, c.take (min c.length (endB - max v s.pos + 1)))]
          prog := s.prog + min c.length (endB - max v s.pos + 1)
          jumped := s.jumped || decide (s.pos < v) } := by
  have hcc : correctCursor s.pos (some v) = max v s.pos := by
    simp only [correctCursor]
    split <;> omega
  have hd : decide (s.pos < correctCursor s.pos (some v)) = decide (s.pos < v) := by
    rw [hcc]
    exact decide_eq_decide.mpr (by constructor <;> omega)
  have hac : applyCr 206 s (some v)
      = { s with pos := max v s.pos, jumped := s.jumped || decide (s.pos < v) } := by
    rw [applyCr, if_pos rfl, hd, hcc]
  have hclen : c.length ≠ 0 := by
    intro h0
    exact hc (List.length_eq_zero.mp h0)
  simp only [step]
  rw [if_neg (by decide), if_neg (by decide), hac]
  rw [consumeChunks_single endB _ c (by dsimp only; omega) (by dsimp only; omega)]
  simp only [Bool.false_and]
  rw [if_neg Bool.false_ne_true]

theorem C6_witness :
    ([10, 20] : List Nat) ≠ [] ∧ max 7 5 ≤ 9 ∧
    step 9 3 (FetchSt.mk 5 0 1 [] 0 [] false) (Event.resp 206 (some 7) [[10, 20]] false) =
      StepRes.next
        { FetchSt.mk 5 0 1 [] 0 [] false with
          pos := max 7 5 + min ([10, 20] : List Nat).length (9 - max 7 5 + 1)
          attempt := 0
          backoff := 1
          writes := [] ++
            [(max 7 5, ([10, 20] : List Nat).take (min ([10, 20] : List Nat).length (9 - max 7 5 + 1)))]
          prog := 0 + min ([10, 20] : List Nat).length (9 - max 7 5 + 1)
          jumped := false || decide (5 < 7) } :=
  ⟨by decide, by decide,
    C6_forward_only_correction 9 3 (FetchSt.mk 5 0 1 [] 0 [] false) 7 [10, 20]
      (by decide) (by decide)⟩

/-- C7 counterexample: on segment [0, 9] a single 206 response declaring
Content-Range start 10 (one past the segment end) with an empty body makes
the fetcher move its cursor past the end and return success, with no bytes
written and the progress counter incremented by 0 rather than
end - start + 1 = 10.  The claim that success implies every byte of the
segment was written and progress advanced by exactly the segment length is
therefore false on the code. -/
theorem C7_counterexample :
    fetchRange 0 9 5 [Event.resp 206 (some 10) [] false]
      = FetchResult.success
          { pos := 10, attempt := 0, backoff := 1, writes := [], prog := 0,
            sleeps := [], jumped := true } ∧
    (0 : Nat) ≠ 9 - 0 + 1 := by
  exact ⟨by rfl, by omega⟩

/-- C7 amended: if the fetcher returns success and no 206 response ever
declared a Content-Range start ahead of the current cursor (ghost flag
`jumped` still false), then every offset of `[start, endB]` is covered by a
recorded write and the progress counter was incremented by exactly
endB - start + 1 in total; in every case the progress counter equals the
total number of bytes written (never double-counted on retry, since a retry
resumes from the inner cursor). -/
theorem C7_success_covers_segment (start endB mr : Nat) (evs : List Event)
    (s : FetchSt) (hse : start ≤ endB)
    (hs : fetchRange start endB mr evs = FetchResult.success s)
    (hnj : s.jumped = false) :
    (∀ j, start ≤ j → j ≤ endB → writtenAt s.writes j) ∧
    s.prog = endB - start + 1 ∧
    s.prog = blockSum s.writes := by
  obtain ⟨hfi, hpos⟩ :=
    (fetchLoop_inv start endB mr evs _ (FInv_init start endB mr)).2.1 s hs
  obtain ⟨h1, h2, h3, h4, h5, h6⟩ := hfi.1
  obtain ⟨hnj1, hnj2, hnj3⟩ := h6 hnj
  refine ⟨?_, ?_, h4⟩
  · intro j hj1 hj2
    exact hnj2 j hj1 (by omega)
  · omega

theorem C7_witness :
    ((0 : Nat) ≤ 2) ∧
    ((∀ j, 0 ≤ j → j ≤ 2 → writtenAt [(0, [7, 8, 9])] j) ∧
     (3 : Nat) = 2 - 0 + 1 ∧ (3 : Nat) = blockSum [(0, [7, 8, 9])]) :=
  ⟨by decide,
    C7_success_covers_segment 0 2 1 [Event.resp 206 (some 0) [[7, 8, 9]] false]
      (FetchSt.mk 3 0 1 [(0, [7, 8, 9])] 3 [] false) (by decide) (by rfl) rfl⟩

/-- C8 counterexample: with max_retries = 1, two consecutive responses each
deliver one body chunk and then drop mid-body.  The claim says consuming even
one chunk resets the attempt counter, so the counter would never exceed 1 and
the fetch would keep retrying.  On the code the reset (lines 159-160) runs
only after the body iterator finishes cleanly; a mid-body drop jumps to the
except-handler first, so the counter reaches 2 > 1 and the error escalates
even though every attempt made forward progress (2 bytes written). -/
theorem C8_counterexample :
    fetchRange 0 99 1
        [Event.resp 200 none [[7]] true, Event.resp 200 none [[8]] true]
      = FetchResult.error
          { pos := 2, attempt := 2, backoff := 2, writes := [(0, [7]), (1, [8])],
            prog := 2, sleeps := [1], jumped := false } "retries exhausted" ∧
    (2 : Nat) ≠ 0 := by
  exact ⟨by rfl, by omega⟩

/-- C8 amended: transient drops are retried with exponential backoff of base
1 second, doubling and capped at 10 (every performed sleep is `min (2^k) 10`
for the number k of failures in the current streak), up to the configured
maximum attempt count, after which the error escalates with the counter at
maxRetries + 1; the attempt counter and backoff are reset to their initial
values only by a response body that is consumed to completion without error
(clean end-of-stream), not merely by consuming a chunk. -/
theorem C8_backoff_policy (start endB mr : Nat) (evs : List Event) :
    (∀ x ∈ (finalSt (fetchRange start endB mr evs)).sleeps,
      ∃ k, x = min (2 ^ k) 10) ∧
    (∀ s, fetchRange start endB mr evs = FetchResult.error s "retries exhausted" →
      s.attempt = mr + 1) ∧
    (∀ s, fetchRange start endB mr evs = FetchResult.success s →
      s.backoff = min (2 ^ s.attempt) 10) ∧
    (∀ (s s' : FetchSt) (status : Nat) (cr : Option Nat)
        (chunks : List (List Nat)),
      step endB mr s (Event.resp status cr chunks false) = StepRes.next s' →
      s'.attempt = 0 ∧ s'.backoff = 1) := by
  have hmain := fetchLoop_inv start endB mr evs _ (FInv_init start endB mr)
  refine ⟨hmain.1.2.2.2.2.1, hmain.2.2, fun s hs => (hmain.2.1 s hs).1.2.1, ?_⟩
  intro s s' status cr chunks hstep
  rw [step] at hstep
  split at hstep
  · exact absurd hstep (by simp)
  · split at hstep
    · exact absurd hstep (by simp)
    · split at hstep
      · next hcond => exact absurd hcond (by simp)
      · injection hstep with hstep
        subst hstep
        exact ⟨rfl, rfl⟩

theorem C8_witness :
    (FetchSt.mk 2 2 2 [(0, [7]), (1, [8])] 2 [1] false).attempt = 1 + 1 :=
  (C8_backoff_policy 0 99 1
      [Event.resp 200 none [[7]] true, Event.resp 200 none [[8]] true]).2.1
    (FetchSt.mk 2 2 2 [(0, [7]), (1, [8])] 2 [1] false) (by rfl)

/-- C10: when a ranged request is answered by 200 OK (server ignores the
Range header), the fetcher skips the Content-Range check (line 136 tests for
206 only) and streams the body into the file starting at its current cursor:
with cursor at `pos`, body byte k lands at absolute offset `pos + k` (not at
offset k), the write is truncated at the segment end, and after
`endB - pos + 1` body bytes the segment completes as a success regardless of
any remaining script events. -/
theorem C10_status200_writes_at_cursor (start endB mr : Nat) (s : FetchSt)
    (body : List Nat) (rest : List Event) (hpos : s.pos ≤ endB)
    (hlen : endB + 1 ≤ s.pos + body.length) :
    fetchLoop start endB mr s (Event.resp 200 none [body] false :: rest)
      = FetchResult.success
          { s with
            pos := endB + 1
            attempt := 0
            backoff := 1
            writes := s.writes ++ [(s.pos, body.take (endB - s.pos + 1))]
            prog := s.prog + (endB - s.pos + 1) } ∧
    (∀ (f : Nat → Nat) (k : Nat), k < endB - s.pos + 1 →
      applyWrites f [(s.pos, body.take (endB - s.pos + 1))] (s.pos + k)
        = body.getD k 0) := by
  have hwant : min body.length (endB - s.pos + 1) = endB - s.pos + 1 := by
    omega
  have htk : (body.take (endB - s.pos + 1)).length = endB - s.pos + 1 := by
    rw [List.length_take]
    omega
  constructor
  · have hp : s.pos + (endB - s.pos + 1) = endB + 1 := by omega
    have hstep : step endB mr s (Event.resp 200 none [body] false)
        = StepRes.next
            { s with
              pos := endB + 1
              attempt := 0
              backoff := 1
              writes := s.writes ++ [(s.pos, body.take (endB - s.pos + 1))]
              prog := s.prog + (endB - s.pos + 1) } := by
      have hac : applyCr 200 s none = s := by
        rw [applyCr, if_neg (by decide)]
      simp only [step]
      rw [if_neg (by decide), if_neg (by decide), hac]
      rw [consumeChunks_single endB s body (by omega) (by omega)]
      simp only [Bool.false_and]
      rw [if_neg Bool.false_ne_true, hwant, hp]
    rw [fetchLoop, if_neg (by omega), hstep]
    exact fetchLoop_done start endB mr _ rest (Nat.lt_succ_self endB)
  · intro f k hk
    simp only [applyWrites, List.foldl_cons, List.foldl_nil, applyBlock]
    rw [if_pos ⟨by omega, by rw [htk]; omega⟩]
    have hik : s.pos + k - s.pos = k := by omega
    rw [hik, getD_take_of_lt body (endB - s.pos + 1) k hk]

theorem C10_witness :
    (FetchSt.mk 3 0 1 [] 0 [] false).pos ≤ 6 ∧
    6 + 1 ≤ (FetchSt.mk 3 0 1 [] 0 [] false).pos + ([1, 2, 3, 4, 5, 6, 7, 8] : List Nat).length ∧
    (fetchLoop 3 6 0 (FetchSt.mk 3 0 1 [] 0 [] false)
        (Event.resp 200 none [[1, 2, 3, 4, 5, 6, 7, 8]] false :: [])
      = FetchResult.success
          { FetchSt.mk 3 0 1 [] 0 [] false with
            pos := 6 + 1
            attempt := 0
            backoff := 1
            writes := [] ++ [(3, ([1, 2, 3, 4, 5, 6, 7, 8] : List Nat).take (6 - 3 + 1))]
            prog := 0 + (6 - 3 + 1) } ∧
     ∀ (f : Nat → Nat) (k : Nat), k < 6 - 3 + 1 →
      applyWrites f [(3, ([1, 2, 3, 4, 5, 6, 7, 8] : List Nat).take (6 - 3 + 1))] (3 + k)
        = ([1, 2, 3, 4, 5, 6, 7, 8] : List Nat).getD k 0) :=
  ⟨by decide, by decide,
    C10_status200_writes_at_cursor 3 6 0 (FetchSt.mk 3 0 1 [] 0 [] false)
      [1, 2, 3, 4, 5, 6, 7, 8] [] (by decide) (by decide)⟩

/-! ### Idealised engine lemmas for resume idempotence -/

theorem fetch_ideal (res : Nat → Nat) (mr s e : Nat) (hse : s ≤ e) :
    fetchRange s e mr (idealEvents res s e)
      = FetchResult.success
          { pos := e + 1, attempt := 0, backoff := 1,
            writes := [(s, resBytes res s e)], prog := e - s + 1,
            sleeps := [], jumped := false } := by
  have hlen : (resBytes res s e).length = e - s + 1 := by
    simp [resBytes]
  have hmin : min (resBytes res s e).length (e - s + 1) = e - s + 1 := by
    omega
  have htk : (resBytes res s e).take (e - s + 1) = resBytes res s e := by
    rw [← hlen]
    exact List.take_length _
  have hac : applyCr 206 (initSt s) (some s) = initSt s := by
    simp [applyCr, correctCursor, initSt]
  have hstep : step e mr (initSt s) (Event.resp 206 (some s) [resBytes res s e] false)
      = StepRes.next
          { pos := e + 1, attempt := 0, backoff := 1,
            writes := [(s, resBytes res s e)], prog := e - s + 1,
            sleeps := [], jumped := false } := by
    simp only [step]
    rw [if_neg (by decide), if_neg (by decide), hac]
    rw [consumeChunks_single e (initSt s) (resBytes res s e)
      (by simp only [initSt]; omega) (by simp only [initSt]; omega)]
    simp only [Bool.false_and]
    rw [if_neg Bool.false_ne_true]
    simp only [initSt]
    rw [hmin, htk]
    have h1 : s + (e - s + 1) = e + 1 := by omega
    rw [h1]
    simp
  rw [fetchRange, idealEvents, fetchLoop,
    if_neg (show ¬ (initSt s).pos > e by simp only [initSt]; omega), hstep]
  exact fetchLoop_done s e mr _ [] (Nat.lt_succ_self e)

theorem workerWrites_ideal (res : Nat → Nat) (mr : Nat) (p : Nat × Nat)
    (hse : p.1 ≤ p.2) :
    workerWrites res mr p = [(p.1, resBytes res p.1 p.2)] := by
  rw [workerWrites, fetch_ideal res mr p.1 p.2 hse]
  rfl

theorem applyWrites_resBytes (res : Nat → Nat) (s e : Nat) (f : Nat → Nat)
    (j : Nat) (hse : s ≤ e) :
    applyWrites f [(s, resBytes res s e)] j
      = if s ≤ j ∧ j ≤ e then res j else f j := by
  simp only [applyWrites, List.foldl_cons, List.foldl_nil, applyBlock]
  have hlen : (resBytes res s e).length = e - s + 1 := by
    simp [resBytes]
  by_cases h : s ≤ j ∧ j ≤ e
  · have hcond : s ≤ j ∧ j < s + (resBytes res s e).length := by
      constructor
      · exact h.1
      · omega
    rw [if_pos h, if_pos hcond]
    rw [List.getD_eq_getElem?_getD, resBytes, List.getElem?_map,
      List.getElem?_range (by omega : j - s < e - s + 1)]
    show res (s + (j - s)) = res j
    congr 1
    omega
  · rw [if_neg h, if_neg (by omega)]

theorem runWorkers_content (res : Nat → Nat) (mr : Nat)
    (ranges : List (Nat × Nat)) :
    ∀ (idxs : List Nat) (file : Nat → Nat) (j : Nat),
      (∀ i ∈ idxs, (ranges.getD i (0, 0)).1 ≤ (ranges.getD i (0, 0)).2) →
      runWorkers res mr ranges idxs file j
        = if ∃ i ∈ idxs, (ranges.getD i (0, 0)).1 ≤ j ∧
              j ≤ (ranges.getD i (0, 0)).2
          then res j else file j := by
  intro idxs
  induction idxs with
  | nil =>
    intro file j h
    simp [runWorkers]
  | cons a t ih =>
    intro file j h
    have ha := h a (List.mem_cons_self a t)
    show runWorkers res mr ranges t
        (applyWrites file (workerWrites res mr (ranges.getD a (0, 0)))) j = _
    rw [ih _ j (fun i hi => h i (List.mem_cons_of_mem a hi))]
    rw [workerWrites_ideal res mr _ ha,
      applyWrites_resBytes res (ranges.getD a (0, 0)).1 (ranges.getD a (0, 0)).2
        file j ha]
    by_cases ht : ∃ i ∈ t, (ranges.getD i (0, 0)).1 ≤ j ∧
        j ≤ (ranges.getD i (0, 0)).2
    · rw [if_pos ht]
      obtain ⟨i, hi1, hi2⟩ := ht
      rw [if_pos ⟨i, List.mem_cons_of_mem a hi1, hi2⟩]
    · rw [if_neg ht]
      by_cases haj : (ranges.getD a (0, 0)).1 ≤ j ∧ j ≤ (ranges.getD a (0, 0)).2
      · rw [if_pos haj, if_pos ⟨a, List.mem_cons_self a t, haj⟩]
      · rw [if_neg haj, if_neg ?_]
        rintro ⟨i, hi1, hi2⟩
        rcases List.mem_cons.mp hi1 with rfl | hi1
        · exact haj hi2
        · exact ht ⟨i, hi1, hi2⟩

theorem launchedIndices_mem (ranges : List (Nat × Nat)) (D : Finset Nat)
    (i : Nat) :
    i ∈ launchedIndices ranges D ↔ i < ranges.length ∧ i ∉ D := by
  rw [launchedIndices, List.mem_filter, List.mem_range]
  simp

theorem launchedIndices_length (ranges : List (Nat × Nat)) (D : Finset Nat)
    (hD : ∀ i ∈ D, i < ranges.length) :
    (launchedIndices ranges D).length = ranges.length - D.card := by
  have hnd : (launchedIndices ranges D).Nodup :=
    (List.nodup_range _).filter _
  have h1 : (launchedIndices ranges D).toFinset
      = (Finset.range ranges.length).filter (fun i => i ∉ D) := by
    ext x
    rw [List.mem_toFinset, launchedIndices_mem, Finset.mem_filter,
      Finset.mem_range]
  have h2 : (Finset.range ranges.length).filter (fun i => i ∉ D)
      = Finset.range ranges.length \ D :=
    (Finset.sdiff_eq_filter _ _).symm
  have h3 : D ⊆ Finset.range ranges.length := by
    intro i hi
    rw [Finset.mem_range]
    exact hD i hi
  rw [← List.toFinset_card_of_nodup hnd, h1, h2, Finset.card_sdiff h3,
    Finset.card_range]

theorem planRanges_getD (size chunk : Nat) (hc : 0 < chunk) (i : Nat)
    (hi : i < (planRanges size chunk).length) :
    ((planRanges size chunk).getD i (0, 0)).1
      ≤ ((planRanges size chunk).getD i (0, 0)).2 ∧
    ((planRanges size chunk).getD i (0, 0)).2 < size := by
  have hmem : (planRanges size chunk).getD i (0, 0) ∈ planRanges size chunk := by
    rw [List.getD_eq_getElem?_getD, List.getElem?_eq_getElem hi]
    exact List.getElem_mem hi
  have h := planRanges_mem hc _ hmem
  exact ⟨h.1, h.2.1⟩

theorem planRanges_cover_getD (size chunk : Nat) (hc : 0 < chunk) (j : Nat)
    (hj : j < size) :
    ∃ i < (planRanges size chunk).length,
      ((planRanges size chunk).getD i (0, 0)).1 ≤ j ∧
      j ≤ ((planRanges size chunk).getD i (0, 0)).2 := by
  obtain ⟨p, hp1, hp2, hp3⟩ := planRanges_cover hc j hj
  obtain ⟨i, hi, hpi⟩ := List.getElem_of_mem hp1
  refine ⟨i, hi, ?_, ?_⟩ <;>
    rw [List.getD_eq_getElem?_getD, List.getElem?_eq_getElem hi] <;>
    simp only [Option.getD_some] <;> rw [hpi]
  · exact hp2
  · exact hp3

/-- C1: resume idempotence in segmented mode against an ideal range server.
With the same url, size, chunk size and validators, the stored done set is
trusted in full (line 189); the engine launches workers only for indices
outside it (lines 238-241: exactly M - N workers, none for a trusted index);
and if the interrupted run had fully persisted the trusted segments' bytes,
the resumed run produces, at every offset of [0, size), exactly the content
of one uninterrupted pass from a freshly preallocated file. -/
theorem C1_resume_idempotent (res : Nat → Nat) (mr size chunk : Nat)
    (url : String) (v : Validators) (doneList : List Nat) (file1 : Nat → Nat)
    (hs : 0 < size) (hc : 0 < chunk)
    (hD : ∀ i ∈ doneList, i < (planRanges size chunk).length)
    (hfile1 : ∀ i ∈ doneList, ∀ j,
      ((planRanges size chunk).getD i (0, 0)).1 ≤ j →
      j ≤ ((planRanges size chunk).getD i (0, 0)).2 → file1 j = res j) :
    trustedDone
        (some (ResumeMeta.mk url size chunk v.etag v.last_modified doneList))
        url size v = doneList.toFinset ∧
    (∀ j < size,
      runSegmented res mr size chunk doneList.toFinset file1 j
        = runSegmented res mr size chunk ∅ (fun _ => 0) j) ∧
    (∀ i ∈ doneList.toFinset,
      i ∉ launchedIndices (planRanges size chunk) doneList.toFinset) ∧
    (launchedIndices (planRanges size chunk) doneList.toFinset).length
      = (planRanges size chunk).length - doneList.toFinset.card := by
  have hwf : ∀ (D : Finset Nat) (i : Nat),
      i ∈ launchedIndices (planRanges size chunk) D →
      ((planRanges size chunk).getD i (0, 0)).1
        ≤ ((planRanges size chunk).getD i (0, 0)).2 := by
    intro D i hi
    exact (planRanges_getD size chunk hc i
      ((launchedIndices_mem _ D i).mp hi).1).1
  refine ⟨?_, ?_, ?_, ?_⟩
  · simp [trustedDone]
  · intro j hj
    rw [runSegmented, runSegmented]
    rw [runWorkers_content res mr _ _ file1 j (hwf doneList.toFinset)]
    rw [runWorkers_content res mr _ _ (fun _ => 0) j (hwf ∅)]
    obtain ⟨i0, hi0, hi0c⟩ := planRanges_cover_getD size chunk hc j hj
    have hone : ∃ i ∈ launchedIndices (planRanges size chunk) ∅,
        ((planRanges size chunk).getD i (0, 0)).1 ≤ j ∧
        j ≤ ((planRanges size chunk).getD i (0, 0)).2 :=
      ⟨i0, (launchedIndices_mem _ ∅ i0).mpr ⟨hi0, by simp⟩, hi0c⟩
    rw [if_pos hone]
    by_cases hL : ∃ i ∈ launchedIndices (planRanges size chunk) doneList.toFinset,
        ((planRanges size chunk).getD i (0, 0)).1 ≤ j ∧
        j ≤ ((planRanges size chunk).getD i (0, 0)).2
    · rw [if_pos hL]
    · rw [if_neg hL]
      have hi0D : i0 ∈ doneList.toFinset := by
        by_contra hnd
        exact hL ⟨i0, (launchedIndices_mem _ _ i0).mpr ⟨hi0, hnd⟩, hi0c⟩
      exact hfile1 i0 (List.mem_toFinset.mp hi0D) j hi0c.1 hi0c.2
  · intro i hi hmem
    exact ((launchedIndices_mem _ _ i).mp hmem).2 hi
  · exact launchedIndices_length _ _ (fun i hi =>
      hD i (List.mem_toFinset.mp hi))

theorem C1_witness :
    (0 : Nat) < 5 ∧ (0 : Nat) < 2 ∧
    (∀ i ∈ ([0] : List Nat), i < (planRanges 5 2).length) ∧
    (∀ i ∈ ([0] : List Nat), ∀ j : Nat,
      ((planRanges 5 2).getD i (0, 0)).1 ≤ j →
      j ≤ ((planRanges 5 2).getD i (0, 0)).2 → j + 1 = j + 1) ∧
    (trustedDone (some (ResumeMeta.mk "u" 5 2 (some "E") none [0])) "u" 5
        (Validators.mk (some "E") none) = ([0] : List Nat).toFinset ∧
     (∀ j < 5,
       runSegmented (fun j => j + 1) 0 5 2 ([0] : List Nat).toFinset
           (fun j => j + 1) j
         = runSegmented (fun j => j + 1) 0 5 2 ∅ (fun _ => 0) j) ∧
     (∀ i ∈ ([0] : List Nat).toFinset,
       i ∉ launchedIndices (planRanges 5 2) ([0] : List Nat).toFinset) ∧
     (launchedIndices (planRanges 5 2) ([0] : List Nat).toFinset).length
       = (planRanges 5 2).length - ([0] : List Nat).toFinset.card) :=
  ⟨by decide, by decide, by decide, fun _ _ _ _ _ => rfl,
    C1_resume_idempotent (fun j => j + 1) 0 5 2 "u"
      (Validators.mk (some "E") none) [0] (fun j => j + 1)
      (by decide) (by decide) (by decide) (fun _ _ _ _ _ => rfl)⟩
